import Mathlib

/-!
Verification of the Hyprkeys repository.

The repository consists of a single Go file (hyprkeys.go) together with a
block parser/serializer package (notashelf.dev/hyprkeys/util/parser) that the
CLI calls under the flag that dumps configuration blocks.  The parser package
itself is not part of the available sources, so its two functions (Parse and
BuildConf, called Serialize in the design document) are modelled here from the
design document; the functions of hyprkeys.go (readHyprlandConfig,
keybindsToMarkdown, the path resolution in readHyprlandConfig) are embedded
directly from the Go source.

Strings are modelled as lists of characters.
-/

namespace Hyprkeys

/-- Characters are modelled one to one; strings as lists of characters. -/
abbrev Str := List Char

/-- Whitespace characters recognised when trimming a line. -/
def isWS (c : Char) : Prop := c = ' ' ∨ c = '\t' ∨ c = '\r' ∨ c = '\n'

instance decIsWS (c : Char) : Decidable (isWS c) :=
  inferInstanceAs (Decidable (c = ' ' ∨ c = '\t' ∨ c = '\r' ∨ c = '\n'))

/-- Remove leading whitespace. -/
def trimLeft : Str → Str
  | [] => []
  | c :: cs => if isWS c then trimLeft cs else c :: cs

/-- Remove trailing whitespace. -/
def trimRight (l : Str) : Str := (trimLeft l.reverse).reverse

/-- Remove surrounding whitespace. -/
def trim (l : Str) : Str := trimRight (trimLeft l)

/-- Split a list at the first occurrence of the character sep: the first
component is everything before that occurrence, the second everything after
it.  When sep does not occur, the whole list lands in the first component. -/
def breakAt (sep : Char) : Str → Str × Str
  | [] => ([], [])
  | c :: cs =>
    if c = sep then ([], cs)
    else
      let p := breakAt sep cs
      (c :: p.1, p.2)

/-- Split a text into its physical lines (separator is the newline
character).  The empty text has one empty line. -/
def splitLines : Str → List Str
  | [] => [[]]
  | c :: cs =>
    if c = '\n' then [] :: splitLines cs
    else
      match splitLines cs with
      | [] => [[c]]
      | l :: ls => (c :: l) :: ls

/-- Join lines back into a text, inserting a newline between adjacent
lines. -/
def joinLines : List Str → Str
  | [] => []
  | [l] => l
  | l :: ls => l ++ '\n' :: joinLines ls

/-- Modelled from the spec: the structural items of the configuration tree.
The parser package is not among the available sources; following the design
document, each level of the Document is a single ordered sequence of tagged
items, either a key/value Entry or a named Block with its own sequence of
children. -/
inductive Item : Type where
  | entry (key value : Str) : Item
  | blk (name : Str) (children : List Item) : Item

/-- Modelled from the spec: the root of the parsed tree is an ordered
sequence of top-level entries and blocks. -/
abbrev Document := List Item

/-- Modelled from the spec: the only error the core can produce, raised when
brace nesting is unbalanced. -/
inductive ParseError : Type where
  | malformedBlock : ParseError

/-- The structural event a single line contributes: opening a block, closing
a block, or a key/value entry. -/
inductive Event : Type where
  | openB (name : Str) : Event
  | closeB : Event
  | entry (key value : Str) : Event

/-- Modelled from the spec: classification of a single line, in the order
given by the design document.  An empty or comment line yields nothing; a
line whose trimmed form ends with an opening brace opens a block named by the
trimmed text before the brace; a line whose trimmed form is exactly a closing
brace closes a block; otherwise a line containing an equals sign is an entry,
split at the first equals sign with both sides trimmed; every other line is
ignored. -/
def classify (line : Str) : Option Event :=
  if trim line = [] then none
  else if (trim line).head? = some '#' then none
  else if (trim line).getLast? = some '{' then
    some (Event.openB (trim (trim line).dropLast))
  else if trim line = ['}'] then some Event.closeB
  else if '=' ∈ trim line then
    some (Event.entry (trim (breakAt '=' (trim line)).1)
      (trim (breakAt '=' (trim line)).2))
  else none

/-- Parser state: the items already finished at top level and the stack of
currently open blocks, innermost first; each open block carries its name and
the items finished inside it so far. -/
abbrev ParseState := List Item × List (Str × List Item)

/-- Append a finished item to the innermost open block, or to the top level
when no block is open. -/
def pushItem : ParseState → Item → ParseState
  | (root, []), it => (root ++ [it], [])
  | (root, (n, its) :: fs), it => (root, (n, its ++ [it]) :: fs)

/-- Modelled from the spec: apply one structural event to the parser state.
A closing brace with no open block is the malformed-block failure. -/
def applyEvent (st : ParseState) : Event → Except ParseError ParseState
  | Event.openB n => Except.ok (st.1, (n, []) :: st.2)
  | Event.closeB =>
    match st.2 with
    | [] => Except.error ParseError.malformedBlock
    | (n, its) :: fs => Except.ok (pushItem (st.1, fs) (Item.blk n its))
  | Event.entry k v => Except.ok (pushItem st (Item.entry k v))

/-- Run a sequence of events through the parser state. -/
def runEvents (st : ParseState) : List Event → Except ParseError ParseState
  | [] => Except.ok st
  | e :: es =>
    match applyEvent st e with
    | Except.error err => Except.error err
    | Except.ok st' => runEvents st' es

/-- Modelled from the spec: process one physical line. -/
def parseStep (st : ParseState) (line : Str) : Except ParseError ParseState :=
  match classify line with
  | none => Except.ok st
  | some e => applyEvent st e

/-- Run the parser over a list of physical lines. -/
def runLines (st : ParseState) : List Str → Except ParseError ParseState
  | [] => Except.ok st
  | l :: ls =>
    match parseStep st l with
    | Except.error err => Except.error err
    | Except.ok st' => runLines st' ls

/-- Modelled from the spec: parse a list of lines into a Document; an open
block remaining at end of input is the malformed-block failure. -/
def parseLines (lines : List Str) : Except ParseError Document :=
  match runLines ([], []) lines with
  | Except.error err => Except.error err
  | Except.ok (root, []) => Except.ok root
  | Except.ok (_, _ :: _) => Except.error ParseError.malformedBlock

/-- Modelled from the spec: Parse, the block parser of the parser package
(absent from the available sources): split the text into lines and run the
stack-based line scanner. -/
def Parse (text : Str) : Except ParseError Document :=
  parseLines (splitLines text)

/-- The sequence of structural events of a text, in source order. -/
def eventsOf (text : Str) : List Event :=
  (splitLines text).filterMap classify

/-- Cosmetic indentation used by the serializer: two spaces per nesting
level. -/
def indentChars (d : Nat) : Str := List.replicate (2 * d) ' '

/-- The serialized form of an entry at nesting depth d. -/
def entryLine (d : Nat) (k v : Str) : Str :=
  indentChars d ++ k ++ ' ' :: '=' :: ' ' :: v

/-- The serialized block-opener line at nesting depth d. -/
def openLine (d : Nat) (n : Str) : Str :=
  indentChars d ++ n ++ ' ' :: '{' :: []

/-- The serialized block-closer line at nesting depth d. -/
def closeLine (d : Nat) : Str :=
  indentChars d ++ '}' :: []

mutual

/-- Modelled from the spec: serialize one item into its lines, entries as
key, equals sign, value and blocks as an opener line, the recursively
serialized children one level deeper, and a closer line. -/
def serializeItem (d : Nat) : Item → List Str
  | Item.entry k v => [entryLine d k v]
  | Item.blk n ch => openLine d n :: (serializeItems (d + 1) ch ++ [closeLine d])

/-- Modelled from the spec: serialize a sequence of items in stored order. -/
def serializeItems (d : Nat) : List Item → List Str
  | [] => []
  | i :: is => serializeItem d i ++ serializeItems d is

end

/-- Modelled from the spec: Serialize (BuildConf in the caller), the block
serializer of the parser package (absent from the available sources). -/
def Serialize (doc : Document) : Str :=
  joinLines (serializeItems 0 doc)

mutual

/-- The ordered structural events that one item denotes. -/
def itemEvents : Item → List Event
  | Item.entry k v => [Event.entry k v]
  | Item.blk n ch => Event.openB n :: (itemsEvents ch ++ [Event.closeB])

/-- The ordered structural events that a sequence of items denotes. -/
def itemsEvents : List Item → List Event
  | [] => []
  | i :: is => itemEvents i ++ itemsEvents is

end

/-- The events consumed to build one open stack frame: its opener and the
events of its finished items. -/
def frameEvents (f : Str × List Item) : List Event :=
  Event.openB f.1 :: itemsEvents f.2

/-- The events consumed to build the current open stack, outermost first. -/
def stackEvents (stack : List (Str × List Item)) : List Event :=
  (stack.reverse.map frameEvents).flatten

/-- The events consumed to reach a parser state from the empty state. -/
def stateEvents (st : ParseState) : List Event :=
  itemsEvents st.1 ++ stackEvents st.2

/-- Invariant of keys produced by the parser: trimmed, on one line, free of
the equals sign, and not starting the line as a comment marker. -/
def wfKey (k : Str) : Prop :=
  trim k = k ∧ '\n' ∉ k ∧ '=' ∉ k ∧ k.head? ≠ some '#'

/-- Invariant of values produced by the parser: trimmed, on one line, and
not ending in an opening brace. -/
def wfVal (v : Str) : Prop :=
  trim v = v ∧ '\n' ∉ v ∧ v.getLast? ≠ some '{'

/-- Invariant of block names produced by the parser: trimmed, on one line,
and not starting the line as a comment marker. -/
def wfName (n : Str) : Prop :=
  trim n = n ∧ '\n' ∉ n ∧ n.head? ≠ some '#'

mutual

/-- Invariant of items produced by the parser. -/
def wfItem : Item → Prop
  | Item.entry k v => wfKey k ∧ wfVal v
  | Item.blk n ch => wfName n ∧ wfItems ch

/-- Invariant of item sequences produced by the parser. -/
def wfItems : List Item → Prop
  | [] => True
  | i :: is => wfItem i ∧ wfItems is

end

/-- Invariant of parser states reachable from well-formed input. -/
def wfState (st : ParseState) : Prop :=
  wfItems st.1 ∧ ∀ f ∈ st.2, wfName f.1 ∧ wfItems f.2

/-- The invariant of a single event. -/
def wfEvent : Event → Prop
  | Event.openB n => wfName n
  | Event.closeB => True
  | Event.entry k v => wfKey k ∧ wfVal v

/-- Running brace depth of an event sequence: a closing brace at depth zero
is the stray-closer failure, reported as none. -/
def balanceRun : Nat → List Event → Option Nat
  | d, [] => some d
  | d, Event.openB _ :: es => balanceRun (d + 1) es
  | d, Event.closeB :: es =>
    match d with
    | 0 => none
    | d' + 1 => balanceRun d' es
  | d, Event.entry _ _ :: es => balanceRun d es

/-- A text has unbalanced braces when its open and close events either close
a block that is not open or leave a block open at end of input. -/
def unbalanced (text : Str) : Prop :=
  balanceRun 0 (eventsOf text) ≠ some 0

instance decUnbalanced (text : Str) : Decidable (unbalanced text) :=
  inferInstanceAs (Decidable (balanceRun 0 (eventsOf text) ≠ some 0))

/-! ## The CLI functions of hyprkeys.go, embedded from the Go source -/

/-- The fixed test configuration path of readHyprlandConfig. -/
def testPath : Str := "test/hyprland.conf".toList

/-- The path suffix appended to the home directory by readHyprlandConfig. -/
def homeSuffix : Str := "/.config/hypr/hyprland.conf".toList

/-- The literal of the test flag. -/
def testFlag : Str := "--test".toList

/-- Path resolution of readHyprlandConfig (hyprkeys.go lines 20 to 25): when
there is more than one element in the argument vector and the element at
index one is the test flag, the fixed test path; otherwise the home
directory followed by the fixed suffix. -/
def configPath (argv : List Str) (home : Str) : Str :=
  if 1 < argv.length ∧ argv.getD 1 [] = testFlag then testPath
  else home ++ homeSuffix

/-- The Go function strings.TrimPrefix: drop the prefix p from s when s
starts with p, otherwise return s unchanged. -/
def trimPrefixGo (p s : Str) : Str :=
  if p.isPrefixOf s then s.drop p.length else s

/-- The Go function strings.SplitN for positive n, on a single-character
separator: the list of the pieces of s around the first occurrences of the
separator, with at most n pieces, the last piece holding the unsplit
remainder. -/
def splitN (sep : Char) : Nat → Str → List Str
  | 0, _ => []
  | 1, s => [s]
  | n + 2, s =>
    if sep ∈ s then (breakAt sep s).1 :: splitN sep (n + 1) (breakAt sep s).2
    else [s]

/-- The literal prefix of plain keybind lines. -/
def bindEq : Str := "bind=".toList

/-- The literal prefix of mouse keybind lines. -/
def bindmEq : Str := "bindm=".toList

/-- Row assembled by keybindsToMarkdown for one element of its first slice
(hyprkeys.go lines 85 to 108).  The Go code trims the bind prefix, splits on
commas into at most four fields and indexes fields one to three without a
length guard; an element with fewer than four fields makes the Go program
panic with an index-out-of-range error, modelled as none. -/
def kbRow (keybind : Str) : Option Str :=
  match splitN ',' 4 (trimPrefixGo bindEq keybind) with
  | p0 :: p1 :: p2 :: p3 :: _ =>
    if p0 = [] then
      some ("| <kbd>".toList ++ trim p1 ++ "</kbd> | ".toList ++ trim p2
        ++ " | ".toList ++ trim p3 ++ " |".toList)
    else
      some ("| <kbd>".toList ++ p0 ++ " + ".toList ++ trim p1
        ++ "</kbd> | ".toList ++ trim p2 ++ " | ".toList ++ trim p3
        ++ " |".toList)
  | _ => none

/-- Row assembled by keybindsToMarkdown for one element of its second slice
(hyprkeys.go lines 110 to 132): at most three fields, fields one and two
indexed without a length guard, panic modelled as none. -/
def mRow (keybind : Str) : Option Str :=
  match splitN ',' 3 (trimPrefixGo bindmEq keybind) with
  | p0 :: p1 :: p2 :: _ =>
    if p0 = [] then
      some ("| <kbd>".toList ++ trim p1 ++ "</kbd> | | ".toList ++ trim p2
        ++ " |".toList)
    else
      some ("| <kbd>".toList ++ p0 ++ " + ".toList ++ trim p1
        ++ "</kbd> | | ".toList ++ trim p2 ++ " |".toList)
  | _ => none

/-- One loop of keybindsToMarkdown: the rows produced for each keybind in
order, none as soon as one row panics. -/
def rowsOf (f : Str → Option Str) : List Str → Option (List Str)
  | [] => some []
  | s :: ss =>
    match f s, rowsOf f ss with
    | some r, some rs => some (r :: rs)
    | _, _ => none

/-- keybindsToMarkdown (hyprkeys.go lines 83 to 135): one markdown row per
keybind, first the rows of the plain keybinds, then the rows of the mouse
keybinds; a panic in either loop is modelled as none. -/
def keybindsToMarkdown (kbKeybinds mKeybinds : List Str) : Option (List Str) :=
  match rowsOf kbRow kbKeybinds, rowsOf mRow mKeybinds with
  | some a, some b => some (a ++ b)
  | _, _ => none

/-- The regular expression of the scan loop of readHyprlandConfig is the
anchored pattern matching a line that starts with the four characters of the
word bind and contains an equals sign later; its two starred groups can
match the empty string, so the pattern reduces to that prefix-and-later
equals condition on the newline-free lines delivered by the scanner. -/
def matchesBindRegex (line : Str) : Bool :=
  "bind".toList.isPrefixOf line && (line.drop 4).contains '='

/-- The state accumulated by the scan loop of readHyprlandConfig: the four
return values kbKeybinds, mKeybinds, variables and variableMap (hyprkeys.go
lines 38 to 41); the Go map is modelled as a finite function. -/
structure ScanState : Type where
  kbKeybinds : List Str
  mKeybinds : List Str
  variablesOut : List Str
  variableMap : Str → Option Str

/-- One iteration of the scan loop of readHyprlandConfig (hyprkeys.go lines
43 to 69): a line matching the bind regular expression is appended to
mKeybinds; otherwise a line starting with a dollar sign and containing an
equals sign is split at the first equals sign into the variable map; every
other line is ignored. -/
def scanLine (st : ScanState) (line : Str) : ScanState :=
  if matchesBindRegex line then
    { st with mKeybinds := st.mKeybinds ++ [line] }
  else if line.head? = some '$' then
    if '=' ∈ line then
      match splitN '=' 2 line with
      | a :: b :: _ =>
        { st with variableMap := fun x => if x = a then some b else st.variableMap x }
      | _ => st
    else st
  else st

/-- The scan of readHyprlandConfig over the lines of the configuration file
(hyprkeys.go lines 36 to 75), starting from empty slices and an empty map. -/
def readHyprlandConfig (lines : List Str) : ScanState :=
  lines.foldl scanLine ⟨[], [], [], fun _ => none⟩

/-! ## Concrete inputs used by witnesses and counterexamples -/

/-- The nested sample input of the design document. -/
def sampleNested : Str :=
  "device \x7b\n  sensitivity = 0.5\n  touchpad \x7b\n    natural_scroll = true\n  \x7d\n\x7d".toList

/-- The Document the nested sample parses to. -/
def sampleNestedDoc : Document :=
  [Item.blk ("device".toList)
    [Item.entry ("sensitivity".toList) ("0.5".toList),
     Item.blk ("touchpad".toList)
       [Item.entry ("natural_scroll".toList) ("true".toList)]]]

/-- A text that is a single stray closing brace. -/
def strayCloser : Str := "\x7d".toList

/-- A sample with an entry, a block and an entry interleaved at top level. -/
def sampleInterleaved : Str :=
  "a = 1\nblk \x7b\n  b = 2\n\x7d\nc = 3".toList

/-- A line that is simultaneously entry-shaped and opener-shaped. -/
def entryOpenerLine : Str := "foo = bar \x7b".toList

/-- A comment line that is simultaneously entry-shaped and opener-shaped. -/
def commentOpenerLine : Str := "# a = b \x7b".toList

/-- A comment line with leading whitespace. -/
def commentLine : Str := "  # comment".toList

/-- A bare word line: no equals sign, no trailing brace, not a closer. -/
def bareWordLine : Str := "bareword".toList

/-- The Document the interleaved sample parses to. -/
def sampleInterleavedDoc : Document :=
  [Item.entry ("a".toList) ("1".toList),
   Item.blk ("blk".toList) [Item.entry ("b".toList) ("2".toList)],
   Item.entry ("c".toList) ("3".toList)]

/-- An argument-vector head standing for the program name. -/
def progName : Str := "hyprkeys".toList

/-- A sample home directory. -/
def homeSample : Str := "/home/user".toList

/-- A plain keybind line with too few comma-separated fields. -/
def shortBindLine : Str := "bind=a,b".toList

/-- A plain keybind line with the full four comma-separated fields. -/
def fullBindLine : Str := "bind=SUPER,L,exec,firefox".toList

/-- A mouse keybind line with the full three comma-separated fields. -/
def fullBindmLine : Str := "bindm=SUPER,mouse:272,movewindow".toList

/-! ## Lemmas about trimming -/

theorem trimLeft_cons_of_ws {c : Char} (h : isWS c) (l : Str) :
    trimLeft (c :: l) = trimLeft l := by
  simp [trimLeft, h]

theorem trimLeft_cons_of_not_ws {c : Char} (h : ¬ isWS c) (l : Str) :
    trimLeft (c :: l) = c :: l := by
  simp [trimLeft, h]

theorem trimLeft_length_le (l : Str) : (trimLeft l).length ≤ l.length := by
  induction l with
  | nil => simp [trimLeft]
  | cons c cs ih =>
    by_cases h : isWS c
    · rw [trimLeft_cons_of_ws h]
      exact Nat.le_trans ih (Nat.le_succ _)
    · rw [trimLeft_cons_of_not_ws h]

theorem trimLeft_suffix (l : Str) : trimLeft l <:+ l := by
  induction l with
  | nil => simp [trimLeft]
  | cons c cs ih =>
    by_cases h : isWS c
    · rw [trimLeft_cons_of_ws h]
      exact ih.trans (List.suffix_cons c cs)
    · rw [trimLeft_cons_of_not_ws h]

theorem mem_of_mem_trimLeft {c : Char} {l : Str} (h : c ∈ trimLeft l) : c ∈ l :=
  (trimLeft_suffix l).mem h

theorem trimLeft_head_not_ws {l t : Str} {c : Char} (h : trimLeft l = c :: t) :
    ¬ isWS c := by
  induction l with
  | nil => simp [trimLeft] at h
  | cons d ds ih =>
    by_cases hd : isWS d
    · rw [trimLeft_cons_of_ws hd] at h
      exact ih h
    · rw [trimLeft_cons_of_not_ws hd] at h
      cases h
      exact hd

theorem trimLeft_eq_cons_self {l : Str} {c : Char} {t : Str}
    (h : trimLeft l = c :: t) : trimLeft (c :: t) = c :: t :=
  trimLeft_cons_of_not_ws (trimLeft_head_not_ws h) t

theorem trimLeft_idem (l : Str) : trimLeft (trimLeft l) = trimLeft l := by
  cases h : trimLeft l with
  | nil => simp [trimLeft]
  | cons c t => exact trimLeft_eq_cons_self h

theorem trimLeft_eq_nil_iff {l : Str} : trimLeft l = [] ↔ ∀ c ∈ l, isWS c := by
  induction l with
  | nil => simp [trimLeft]
  | cons c cs ih =>
    by_cases h : isWS c
    · rw [trimLeft_cons_of_ws h]
      simp [ih, h]
    · rw [trimLeft_cons_of_not_ws h]
      simp only [List.mem_cons]
      constructor
      · intro hnil; cases hnil
      · intro hall; exact absurd (hall c (Or.inl rfl)) h

theorem trimLeft_append_ws {p : Str} (h : ∀ c ∈ p, isWS c) (l : Str) :
    trimLeft (p ++ l) = trimLeft l := by
  induction p with
  | nil => simp
  | cons c cs ih =>
    rw [List.cons_append, trimLeft_cons_of_ws (h c (List.mem_cons_self c cs))]
    exact ih (fun d hd => h d (List.mem_cons_of_mem c hd))

theorem trimLeft_append_left {l : Str} (h : trimLeft l = l) (hne : l ≠ [])
    (r : Str) : trimLeft (l ++ r) = l ++ r := by
  cases l with
  | nil => exact absurd rfl hne
  | cons c t =>
    rw [List.cons_append]
    exact trimLeft_cons_of_not_ws (trimLeft_head_not_ws h) (t ++ r)

/-! Lemmas about trimRight, transported through list reversal. -/

theorem trimRight_isPrefixOf (l : Str) : trimRight l <+: l := by
  have h := trimLeft_suffix l.reverse
  rw [← List.reverse_prefix] at h
  simpa [trimRight] using h

theorem mem_of_mem_trimRight {c : Char} {l : Str} (h : c ∈ trimRight l) : c ∈ l :=
  (trimRight_isPrefixOf l).mem h

theorem trimRight_eq_nil_iff {l : Str} : trimRight l = [] ↔ ∀ c ∈ l, isWS c := by
  unfold trimRight
  rw [List.reverse_eq_nil_iff, trimLeft_eq_nil_iff]
  constructor
  · intro h c hc; exact h c (by simpa using hc)
  · intro h c hc; exact h c (by simpa using hc)

theorem trimRight_getLast_not_ws {l : Str} {c : Char}
    (h : (trimRight l).getLast? = some c) : ¬ isWS c := by
  rw [← List.head?_reverse] at h
  unfold trimRight at h
  rw [List.reverse_reverse] at h
  cases ht : trimLeft l.reverse with
  | nil => rw [ht] at h; simp at h
  | cons d t =>
    rw [ht] at h
    simp only [List.head?_cons, Option.some.injEq] at h
    subst h
    exact trimLeft_head_not_ws ht

theorem trimRight_eq_self_of_getLast {l : Str} {c : Char}
    (h : l.getLast? = some c) (hc : ¬ isWS c) : trimRight l = l := by
  rw [← List.head?_reverse] at h
  unfold trimRight
  cases hr : l.reverse with
  | nil => rw [hr] at h; simp at h
  | cons d t =>
    rw [hr] at h
    simp only [List.head?_cons, Option.some.injEq] at h
    subst h
    rw [trimLeft_cons_of_not_ws hc, ← hr, List.reverse_reverse]

theorem trimRight_concat_not_ws {l : Str} {c : Char} (hc : ¬ isWS c) :
    trimRight (l ++ [c]) = l ++ [c] :=
  trimRight_eq_self_of_getLast (List.getLast?_concat l) hc

theorem trimRight_append_ws {p : Str} (h : ∀ c ∈ p, isWS c) (l : Str) :
    trimRight (l ++ p) = trimRight l := by
  unfold trimRight
  rw [List.reverse_append, trimLeft_append_ws (fun c hc => h c (by simpa using hc))]

theorem trimRight_idem (l : Str) : trimRight (trimRight l) = trimRight l := by
  unfold trimRight
  rw [List.reverse_reverse, trimLeft_idem]

/-! Lemmas about trim. -/

theorem trim_eq_nil_iff {l : Str} : trim l = [] ↔ ∀ c ∈ l, isWS c := by
  unfold trim
  rw [trimRight_eq_nil_iff]
  constructor
  · intro h
    have hnil : trimLeft l = [] := by
      cases ht : trimLeft l with
      | nil => rfl
      | cons c t =>
        exact absurd (h c (by rw [ht]; exact List.mem_cons_self c t))
          (trimLeft_head_not_ws ht)
    exact trimLeft_eq_nil_iff.mp hnil
  · intro h c hc
    exact h c (mem_of_mem_trimLeft hc)

theorem mem_of_mem_trim {c : Char} {l : Str} (h : c ∈ trim l) : c ∈ l :=
  mem_of_mem_trimLeft (mem_of_mem_trimRight h)

theorem trimLeft_trim (l : Str) : trimLeft (trim l) = trim l := by
  cases h : trim l with
  | nil => simp [trimLeft]
  | cons c t =>
    have hp : trim l <+: trimLeft l := by
      unfold trim
      exact trimRight_isPrefixOf _
    rw [h] at hp
    obtain ⟨s, hs⟩ := hp
    rw [List.cons_append] at hs
    have : ¬ isWS c := trimLeft_head_not_ws hs.symm
    exact trimLeft_cons_of_not_ws this t

theorem trimRight_trim (l : Str) : trimRight (trim l) = trim l := by
  unfold trim
  rw [trimRight_idem]

theorem trim_idem (l : Str) : trim (trim l) = trim l := by
  conv_lhs => rw [trim, trimLeft_trim, trimRight_trim]

theorem trimLeft_of_trim_eq {l : Str} (h : trim l = l) : trimLeft l = l := by
  conv_lhs => rw [← h, trimLeft_trim, h]

theorem trimRight_of_trim_eq {l : Str} (h : trim l = l) : trimRight l = l := by
  conv_lhs => rw [← h, trimRight_trim, h]

theorem trim_head_not_ws {l t : Str} {c : Char} (h : trim l = c :: t) :
    ¬ isWS c := by
  have := trimLeft_of_trim_eq (trim_idem l)
  rw [h] at this
  exact trimLeft_head_not_ws this

theorem trim_getLast_not_ws {l : Str} {c : Char}
    (h : (trim l).getLast? = some c) : ¬ isWS c := by
  have heq : trimRight (trim l) = trim l := trimRight_trim l
  rw [← heq] at h
  exact trimRight_getLast_not_ws h

theorem trim_append_ws_right {l p : Str} (hl : trim l = l)
    (hp : ∀ c ∈ p, isWS c) : trim (l ++ p) = l := by
  cases l with
  | nil =>
    simp only [List.nil_append]
    exact trim_eq_nil_iff.mpr hp
  | cons c t =>
    unfold trim
    rw [trimLeft_append_left (trimLeft_of_trim_eq hl) (by simp) p,
      trimRight_append_ws hp, trimRight_of_trim_eq hl]

/-! ## Lemmas about breakAt -/

theorem breakAt_eq_of_mem {sep : Char} {l : Str} (h : sep ∈ l) :
    l = (breakAt sep l).1 ++ sep :: (breakAt sep l).2 := by
  induction l with
  | nil => cases h
  | cons c cs ih =>
    by_cases hc : c = sep
    · subst hc
      simp [breakAt]
    · have hm : sep ∈ cs := by
        cases List.mem_cons.mp h with
        | inl hh => exact absurd hh.symm hc
        | inr hh => exact hh
      simp only [breakAt, if_neg hc]
      rw [List.cons_append]
      exact congrArg (c :: ·) (ih hm)

theorem breakAt_fst_not_mem (sep : Char) (l : Str) :
    sep ∉ (breakAt sep l).1 := by
  induction l with
  | nil => simp [breakAt]
  | cons c cs ih =>
    by_cases hc : c = sep
    · subst hc
      simp [breakAt]
    · simp only [breakAt, if_neg hc]
      intro hmem
      cases List.mem_cons.mp hmem with
      | inl hh => exact hc hh.symm
      | inr hh => exact ih hh

theorem breakAt_append {sep : Char} {k v : Str} (h : sep ∉ k) :
    breakAt sep (k ++ sep :: v) = (k, v) := by
  induction k with
  | nil => simp [breakAt]
  | cons c cs ih =>
    have hc : ¬ c = sep := fun hh => h (hh ▸ List.mem_cons_self c cs)
    have hcs : sep ∉ cs := fun hh => h (List.mem_cons_of_mem c hh)
    rw [List.cons_append]
    simp only [breakAt, if_neg hc, ih hcs]

/-! ## Lemmas about splitting and joining lines -/

theorem splitLines_ne_nil (s : Str) : splitLines s ≠ [] := by
  induction s with
  | nil => simp [splitLines]
  | cons c cs ih =>
    by_cases hc : c = '\n'
    · simp [splitLines, hc]
    · simp only [splitLines, if_neg hc]
      cases hsp : splitLines cs with
      | nil => simp
      | cons l ls => simp

theorem splitLines_cons_of_ne {c : Char} {cs : Str} (h : ¬ c = '\n') {l : Str}
    {ls : List Str} (hsp : splitLines cs = l :: ls) :
    splitLines (c :: cs) = (c :: l) :: ls := by
  simp only [splitLines, if_neg h, hsp]

theorem mem_splitLines_no_nl {s : Str} : ∀ l ∈ splitLines s, '\n' ∉ l := by
  induction s with
  | nil =>
    intro l hl
    simp only [splitLines, List.mem_singleton] at hl
    subst hl
    simp
  | cons c cs ih =>
    by_cases hc : c = '\n'
    · subst hc
      simp only [splitLines, if_pos rfl]
      intro l hl
      cases List.mem_cons.mp hl with
      | inl hh => subst hh; simp
      | inr hh => exact ih l hh
    · cases hsp : splitLines cs with
      | nil => exact absurd hsp (splitLines_ne_nil cs)
      | cons m ms =>
        rw [splitLines_cons_of_ne hc hsp]
        intro l hl
        cases List.mem_cons.mp hl with
        | inl hh =>
          subst hh
          intro hmem
          cases List.mem_cons.mp hmem with
          | inl hh2 => exact hc hh2.symm
          | inr hh2 => exact ih m (hsp ▸ List.mem_cons_self m ms) hh2
        | inr hh => exact ih l (hsp ▸ List.mem_cons_of_mem m hh)

theorem splitLines_of_no_nl {l : Str} (h : '\n' ∉ l) : splitLines l = [l] := by
  induction l with
  | nil => rfl
  | cons c cs ih =>
    have hc : ¬ c = '\n' := fun hh => h (hh ▸ List.mem_cons_self c cs)
    have hcs : '\n' ∉ cs := fun hh => h (List.mem_cons_of_mem c hh)
    exact splitLines_cons_of_ne hc (ih hcs)

theorem splitLines_append_nl {l r : Str} (h : '\n' ∉ l) :
    splitLines (l ++ '\n' :: r) = l :: splitLines r := by
  induction l with
  | nil => simp [splitLines]
  | cons c cs ih =>
    have hc : ¬ c = '\n' := fun hh => h (hh ▸ List.mem_cons_self c cs)
    have hcs : '\n' ∉ cs := fun hh => h (List.mem_cons_of_mem c hh)
    rw [List.cons_append]
    exact splitLines_cons_of_ne hc (ih hcs)

theorem splitLines_joinLines {L : List Str} (h : ∀ l ∈ L, '\n' ∉ l)
    (hne : L ≠ []) : splitLines (joinLines L) = L := by
  induction L with
  | nil => exact absurd rfl hne
  | cons l ls ih =>
    cases ls with
    | nil =>
      show splitLines (joinLines [l]) = [l]
      rw [joinLines]
      exact splitLines_of_no_nl (h l (List.mem_singleton.mpr rfl))
    | cons m ms =>
      show splitLines (l ++ '\n' :: joinLines (m :: ms)) = l :: m :: ms
      rw [splitLines_append_nl (h l (List.mem_cons_self l (m :: ms)))]
      exact congrArg (l :: ·)
        (ih (fun x hx => h x (List.mem_cons_of_mem l hx)) (by simp))

/-! ## The parser as an event machine -/

theorem runLines_eq_runEvents (ls : List Str) : ∀ st : ParseState,
    runLines st ls = runEvents st (ls.filterMap classify) := by
  induction ls with
  | nil => intro st; rfl
  | cons l ls ih =>
    intro st
    cases hc : classify l with
    | none =>
      rw [List.filterMap_cons_none hc]
      simp only [runLines, parseStep, hc]
      exact ih st
    | some e =>
      rw [List.filterMap_cons_some hc]
      simp only [runLines, parseStep, hc, runEvents]
      cases ha : applyEvent st e with
      | error err => rfl
      | ok st' => exact ih st'

theorem pushItem_stack_length (st : ParseState) (it : Item) :
    (pushItem st it).2.length = st.2.length := by
  obtain ⟨root, stack⟩ := st
  cases stack with
  | nil => rfl
  | cons f fs =>
    obtain ⟨n, its⟩ := f
    rfl

theorem foldl_pushItem_top (items : List Item) : ∀ (root : List Item)
    (n : Str) (its : List Item) (fs : List (Str × List Item)),
    List.foldl pushItem (root, (n, its) :: fs) items
      = (root, (n, its ++ items) :: fs) := by
  induction items with
  | nil => intro root n its fs; simp
  | cons i is ih =>
    intro root n its fs
    rw [List.foldl_cons]
    show List.foldl pushItem (root, (n, its ++ [i]) :: fs) is = _
    rw [ih, List.append_assoc]
    rfl

theorem foldl_pushItem_root (items : List Item) : ∀ root : List Item,
    List.foldl pushItem (root, []) items = (root ++ items, []) := by
  induction items with
  | nil => intro root; simp
  | cons i is ih =>
    intro root
    rw [List.foldl_cons]
    show List.foldl pushItem (root ++ [i], []) is = _
    rw [ih, List.append_assoc]
    rfl

theorem itemsEvents_append (a b : List Item) :
    itemsEvents (a ++ b) = itemsEvents a ++ itemsEvents b := by
  induction a with
  | nil => simp [itemsEvents]
  | cons i is ih =>
    rw [List.cons_append]
    show itemEvents i ++ itemsEvents (is ++ b) = _
    rw [ih]
    show _ = (itemEvents i ++ itemsEvents is) ++ itemsEvents b
    rw [List.append_assoc]

theorem stackEvents_cons (f : Str × List Item) (fs : List (Str × List Item)) :
    stackEvents (f :: fs) = stackEvents fs ++ frameEvents f := by
  unfold stackEvents
  rw [List.reverse_cons, List.map_append, List.flatten_append]
  simp

theorem pushItem_stateEvents (st : ParseState) (it : Item) :
    stateEvents (pushItem st it) = stateEvents st ++ itemEvents it := by
  obtain ⟨root, stack⟩ := st
  cases stack with
  | nil =>
    show stateEvents (root ++ [it], []) = _
    unfold stateEvents stackEvents
    rw [itemsEvents_append]
    show itemsEvents root ++ (itemEvents it ++ itemsEvents []) ++ _ = _
    simp [itemsEvents]
  | cons f fs =>
    obtain ⟨n, its⟩ := f
    show stateEvents (root, (n, its ++ [it]) :: fs) = _
    unfold stateEvents
    rw [stackEvents_cons, stackEvents_cons]
    unfold frameEvents
    show itemsEvents root ++ (stackEvents fs ++ (Event.openB n :: itemsEvents (its ++ [it]))) = _
    rw [itemsEvents_append]
    show _ = itemsEvents root ++ (stackEvents fs ++ (Event.openB n :: itemsEvents its)) ++ itemEvents it
    simp [itemsEvents]

theorem applyEvent_stateEvents {st st' : ParseState} {e : Event}
    (h : applyEvent st e = Except.ok st') :
    stateEvents st' = stateEvents st ++ [e] := by
  cases e with
  | openB n =>
    simp only [applyEvent, Except.ok.injEq] at h
    subst h
    show stateEvents (st.1, (n, []) :: st.2) = _
    unfold stateEvents
    rw [stackEvents_cons]
    unfold frameEvents
    simp [itemsEvents]
  | closeB =>
    simp only [applyEvent] at h
    cases hs : st.2 with
    | nil => rw [hs] at h; cases h
    | cons f fs =>
      obtain ⟨n, its⟩ := f
      rw [hs] at h
      simp only [Except.ok.injEq] at h
      subst h
      rw [pushItem_stateEvents]
      show _ = stateEvents st ++ [Event.closeB]
      unfold stateEvents
      rw [hs, stackEvents_cons]
      unfold frameEvents itemEvents
      simp
  | entry k v =>
    simp only [applyEvent, Except.ok.injEq] at h
    subst h
    rw [pushItem_stateEvents]
    rfl

theorem runEvents_stateEvents {evs : List Event} : ∀ {st st' : ParseState},
    runEvents st evs = Except.ok st' → stateEvents st' = stateEvents st ++ evs := by
  induction evs with
  | nil =>
    intro st st' h
    simp only [runEvents, Except.ok.injEq] at h
    subst h
    simp
  | cons e es ih =>
    intro st st' h
    simp only [runEvents] at h
    cases ha : applyEvent st e with
    | error err => rw [ha] at h; cases h
    | ok st1 =>
      rw [ha] at h
      rw [ih h, applyEvent_stateEvents ha, List.append_assoc]
      rfl

theorem runEvents_append_ok {a : List Event} : ∀ {st st1 : ParseState},
    runEvents st a = Except.ok st1 →
    ∀ b, runEvents st (a ++ b) = runEvents st1 b := by
  induction a with
  | nil =>
    intro st st1 h b
    simp only [runEvents, Except.ok.injEq] at h
    subst h
    rfl
  | cons e es ih =>
    intro st st1 h b
    simp only [runEvents] at h
    rw [List.cons_append]
    simp only [runEvents]
    cases ha : applyEvent st e with
    | error err => rw [ha] at h; cases h
    | ok st' =>
      rw [ha] at h
      exact ih h b

mutual

theorem runEvents_itemEvents : ∀ (it : Item) (st : ParseState),
    runEvents st (itemEvents it) = Except.ok (pushItem st it)
  | Item.entry k v, st => by
    show runEvents st [Event.entry k v] = _
    simp [runEvents, applyEvent]
  | Item.blk n ch, st => by
    have hch := runEvents_itemsEvents ch (st.1, (n, []) :: st.2)
    rw [foldl_pushItem_top, List.nil_append] at hch
    have happ := runEvents_append_ok hch [Event.closeB]
    show runEvents st (Event.openB n :: (itemsEvents ch ++ [Event.closeB])) = _
    simp only [runEvents, applyEvent]
    rw [happ]
    show runEvents (st.1, (n, ch) :: st.2) [Event.closeB] = _
    simp [runEvents, applyEvent, Prod.mk.eta]

theorem runEvents_itemsEvents : ∀ (its : List Item) (st : ParseState),
    runEvents st (itemsEvents its) = Except.ok (List.foldl pushItem st its)
  | [], st => by
    show runEvents st [] = _
    simp [runEvents]
  | i :: is, st => by
    have h1 := runEvents_itemEvents i st
    have h2 := runEvents_itemsEvents is (pushItem st i)
    show runEvents st (itemEvents i ++ itemsEvents is) = _
    rw [runEvents_append_ok h1, h2, List.foldl_cons]

end

/-! ## Balance counting -/

theorem runEvents_balance (evs : List Event) : ∀ st : ParseState,
    (balanceRun st.2.length evs = none →
      runEvents st evs = Except.error ParseError.malformedBlock) ∧
    (∀ d, balanceRun st.2.length evs = some d →
      ∃ st', runEvents st evs = Except.ok st' ∧ st'.2.length = d) := by
  induction evs with
  | nil =>
    intro st
    refine ⟨fun h => by simp [balanceRun] at h, fun d h => ⟨st, rfl, ?_⟩⟩
    simpa [balanceRun] using h
  | cons e es ih =>
    intro st
    cases e with
    | openB n =>
      have H := ih (st.1, (n, []) :: st.2)
      simp only [List.length_cons] at H
      constructor
      · intro h
        simp only [balanceRun] at h
        simp only [runEvents, applyEvent]
        exact H.1 h
      · intro d h
        simp only [balanceRun] at h
        obtain ⟨st', hrun, hlen⟩ := H.2 d h
        refine ⟨st', ?_, hlen⟩
        simp only [runEvents, applyEvent]
        exact hrun
    | closeB =>
      cases hs : st.2 with
      | nil =>
        constructor
        · intro h
          simp only [runEvents, applyEvent, hs]
        · intro d h
          simp [balanceRun] at h
      | cons f fs =>
        obtain ⟨n, its⟩ := f
        have H := ih (pushItem (st.1, fs) (Item.blk n its))
        rw [pushItem_stack_length] at H
        constructor
        · intro h
          simp only [List.length_cons, balanceRun] at h
          simp only [runEvents, applyEvent, hs]
          exact H.1 h
        · intro d h
          simp only [List.length_cons, balanceRun] at h
          obtain ⟨st', hrun, hlen⟩ := H.2 d h
          refine ⟨st', ?_, hlen⟩
          simp only [runEvents, applyEvent, hs]
          exact hrun
    | entry k v =>
      have H := ih (pushItem st (Item.entry k v))
      rw [pushItem_stack_length] at H
      constructor
      · intro h
        simp only [balanceRun] at h
        simp only [runEvents, applyEvent]
        exact H.1 h
      · intro d h
        simp only [balanceRun] at h
        obtain ⟨st', hrun, hlen⟩ := H.2 d h
        refine ⟨st', ?_, hlen⟩
        simp only [runEvents, applyEvent]
        exact hrun

theorem parseLines_of_unbalanced {lines : List Str}
    (h : balanceRun 0 (lines.filterMap classify) ≠ some 0) :
    parseLines lines = Except.error ParseError.malformedBlock := by
  have H := runEvents_balance (lines.filterMap classify) (([], []) : ParseState)
  simp only [List.length_nil] at H
  unfold parseLines
  rw [runLines_eq_runEvents]
  cases hb : balanceRun 0 (lines.filterMap classify) with
  | none => rw [H.1 hb]
  | some d =>
    obtain ⟨st', hrun, hlen⟩ := H.2 d hb
    rw [hrun]
    have hd : d ≠ 0 := fun h0 => h (h0 ▸ hb)
    obtain ⟨root, stack⟩ := st'
    cases hst : stack with
    | nil =>
      rw [hst] at hlen
      exact absurd hlen.symm (by simpa using hd)
    | cons f fs => rfl

/-! ## Heads and last characters survive trimming of prefixes and suffixes -/

theorem trim_prefix_head {p t : Str} (hp : p <+: t) (ht : trimLeft t = t)
    (hne : trim p ≠ []) : (trim p).head? = t.head? := by
  obtain ⟨s, rfl⟩ := hp
  cases p with
  | nil => simp [trim, trimRight, trimLeft] at hne
  | cons c p' =>
    have hc : ¬ isWS c := by
      rw [List.cons_append] at ht
      exact trimLeft_head_not_ws ht
    have htp : trimLeft (c :: p') = c :: p' := trimLeft_cons_of_not_ws hc p'
    have hpre : trim (c :: p') <+: c :: p' := by
      rw [trim, htp]
      exact trimRight_isPrefixOf _
    obtain ⟨s', hs'⟩ := hpre
    cases htrp : trim (c :: p') with
    | nil => exact absurd htrp hne
    | cons d r =>
      rw [htrp, List.cons_append] at hs'
      have hd : d = c := by injection hs'
      subst hd
      rfl

theorem trim_suffix_getLast {p t : Str} (hp : p <:+ t) (ht : trimRight t = t)
    (hne : p ≠ []) : (trim p).getLast? = t.getLast? := by
  obtain ⟨s, rfl⟩ := hp
  rcases List.eq_nil_or_concat p with rfl | ⟨q, c, rfl⟩
  · exact absurd rfl hne
  rw [List.concat_eq_append] at *
  have hlast : (s ++ (q ++ [c])).getLast? = some c := by
    rw [List.getLast?_append_of_ne_nil s (by simp)]
    exact List.getLast?_concat q
  have hc : ¬ isWS c := by
    apply trimRight_getLast_not_ws (l := s ++ (q ++ [c]))
    rw [ht]
    exact hlast
  have htl_ne : trimLeft (q ++ [c]) ≠ [] := by
    intro hnil
    exact hc (trimLeft_eq_nil_iff.mp hnil c (by simp))
  have hsfx : trimLeft (q ++ [c]) <:+ q ++ [c] := trimLeft_suffix _
  obtain ⟨w, hw⟩ := hsfx
  have hlast2 : (trimLeft (q ++ [c])).getLast? = some c := by
    have haux := List.getLast?_append_of_ne_nil w htl_ne
    rw [hw] at haux
    rw [← haux]
    exact List.getLast?_concat q
  rw [trim, trimRight_eq_self_of_getLast hlast2 hc, hlast, hlast2]

/-! ## Classified events are well-formed -/

theorem classify_wf {line : Str} (hnl : '\n' ∉ line) {e : Event}
    (h : classify line = some e) : wfEvent e := by
  unfold classify at h
  by_cases h0 : trim line = []
  · rw [if_pos h0] at h
    cases h
  rw [if_neg h0] at h
  by_cases h1 : (trim line).head? = some '#'
  · rw [if_pos h1] at h
    cases h
  rw [if_neg h1] at h
  have htl : trimLeft (trim line) = trim line := trimLeft_trim line
  have htr : trimRight (trim line) = trim line := trimRight_trim line
  have hmem : ∀ c ∈ trim line, c ∈ line := fun c hc => mem_of_mem_trim hc
  by_cases h2 : (trim line).getLast? = some '{'
  · rw [if_pos h2] at h
    injection h with h'
    subst h'
    refine ⟨trim_idem _, ?_, ?_⟩
    · intro hm
      exact hnl (hmem _ (List.mem_of_mem_dropLast (mem_of_mem_trim hm)))
    · cases hq : trim (trim line).dropLast with
      | nil => simp
      | cons c r =>
        have hh := trim_prefix_head (List.dropLast_prefix (trim line)) htl
          (by rw [hq]; simp)
        rw [hq] at hh
        rw [hh]
        exact h1
  rw [if_neg h2] at h
  by_cases h3 : trim line = ['}']
  · rw [if_pos h3] at h
    injection h with h'
    subst h'
    exact trivial
  rw [if_neg h3] at h
  by_cases h4 : '=' ∈ trim line
  · rw [if_pos h4] at h
    injection h with h'
    subst h'
    have hsplit := breakAt_eq_of_mem h4
    have hpre : (breakAt '=' (trim line)).1 <+: trim line :=
      ⟨'=' :: (breakAt '=' (trim line)).2, hsplit.symm⟩
    have hsuf : (breakAt '=' (trim line)).2 <:+ trim line := by
      refine ⟨(breakAt '=' (trim line)).1 ++ ['='], ?_⟩
      rw [List.append_assoc]
      exact hsplit.symm
    constructor
    · refine ⟨trim_idem _, ?_, ?_, ?_⟩
      · intro hm
        exact hnl (hmem _ (hpre.mem (mem_of_mem_trim hm)))
      · intro hm
        exact breakAt_fst_not_mem '=' (trim line) (mem_of_mem_trim hm)
      · cases hq : trim (breakAt '=' (trim line)).1 with
        | nil => simp
        | cons c r =>
          have hh := trim_prefix_head hpre htl (by rw [hq]; simp)
          rw [hq] at hh
          rw [hh]
          exact h1
    · refine ⟨trim_idem _, ?_, ?_⟩
      · intro hm
        exact hnl (hmem _ (hsuf.mem (mem_of_mem_trim hm)))
      · cases hp2 : (breakAt '=' (trim line)).2 with
        | nil => simp [trim, trimLeft, trimRight]
        | cons x xs =>
          rw [← hp2]
          have hh := trim_suffix_getLast hsuf htr (by rw [hp2]; simp)
          rw [hh]
          exact h2
  · rw [if_neg h4] at h
    cases h

/-! ## Parsing preserves well-formedness -/

theorem wfItems_nil : wfItems [] := by
  simp [wfItems]

theorem wfItems_cons {i : Item} {is : List Item} (hi : wfItem i)
    (his : wfItems is) : wfItems (i :: is) := by
  rw [wfItems]
  exact ⟨hi, his⟩

theorem wfItems_append {a b : List Item} (ha : wfItems a) (hb : wfItems b) :
    wfItems (a ++ b) := by
  induction a with
  | nil => simpa using hb
  | cons i is ih =>
    rw [wfItems] at ha
    rw [List.cons_append]
    exact wfItems_cons ha.1 (ih ha.2)

theorem pushItem_wf {st : ParseState} {it : Item} (hst : wfState st)
    (hit : wfItem it) : wfState (pushItem st it) := by
  obtain ⟨root, stack⟩ := st
  obtain ⟨hroot, hstack⟩ := hst
  cases stack with
  | nil =>
    refine ⟨?_, ?_⟩
    · exact wfItems_append hroot (wfItems_cons hit wfItems_nil)
    · intro f hf
      cases hf
  | cons f fs =>
    obtain ⟨n, its⟩ := f
    refine ⟨hroot, ?_⟩
    intro g hg
    cases List.mem_cons.mp hg with
    | inl heq =>
      subst heq
      have hfr := hstack (n, its) (List.mem_cons_self _ _)
      exact ⟨hfr.1, wfItems_append hfr.2 (wfItems_cons hit wfItems_nil)⟩
    | inr hmem => exact hstack g (List.mem_cons_of_mem _ hmem)

theorem applyEvent_wf {st st' : ParseState} {e : Event} (hst : wfState st)
    (he : wfEvent e) (h : applyEvent st e = Except.ok st') : wfState st' := by
  cases e with
  | openB n =>
    simp only [applyEvent, Except.ok.injEq] at h
    subst h
    refine ⟨hst.1, ?_⟩
    intro f hf
    cases List.mem_cons.mp hf with
    | inl heq =>
      subst heq
      exact ⟨he, wfItems_nil⟩
    | inr hmem => exact hst.2 f hmem
  | closeB =>
    simp only [applyEvent] at h
    cases hs : st.2 with
    | nil => rw [hs] at h; cases h
    | cons f fs =>
      obtain ⟨n, its⟩ := f
      rw [hs] at h
      simp only [Except.ok.injEq] at h
      subst h
      have hfr := hst.2 (n, its) (hs ▸ List.mem_cons_self _ _)
      refine pushItem_wf ⟨hst.1, ?_⟩ ?_
      · intro g hg
        exact hst.2 g (hs ▸ List.mem_cons_of_mem _ hg)
      · rw [wfItem]
        exact ⟨hfr.1, hfr.2⟩
  | entry k v =>
    simp only [applyEvent, Except.ok.injEq] at h
    subst h
    refine pushItem_wf hst ?_
    rw [wfItem]
    exact he

theorem runEvents_wf {evs : List Event} : ∀ {st st' : ParseState},
    wfState st → (∀ e ∈ evs, wfEvent e) →
    runEvents st evs = Except.ok st' → wfState st' := by
  induction evs with
  | nil =>
    intro st st' hst _ h
    simp only [runEvents, Except.ok.injEq] at h
    subst h
    exact hst
  | cons e es ih =>
    intro st st' hst hall h
    simp only [runEvents] at h
    cases ha : applyEvent st e with
    | error err => rw [ha] at h; cases h
    | ok st1 =>
      rw [ha] at h
      exact ih (applyEvent_wf hst (hall e (List.mem_cons_self _ _)) ha)
        (fun x hx => hall x (List.mem_cons_of_mem _ hx)) h

theorem eventsOf_wf (text : Str) : ∀ e ∈ eventsOf text, wfEvent e := by
  intro e he
  obtain ⟨l, hl, hcl⟩ := List.mem_filterMap.mp he
  exact classify_wf (mem_splitLines_no_nl l hl) hcl

theorem parse_ok_runEvents {text : Str} {doc : Document}
    (h : Parse text = Except.ok doc) :
    runEvents ([], []) (eventsOf text) = Except.ok (doc, []) := by
  unfold Parse parseLines at h
  rw [runLines_eq_runEvents] at h
  cases hr : runEvents ([], []) ((splitLines text).filterMap classify) with
  | error err => rw [hr] at h; cases h
  | ok st' =>
    rw [hr] at h
    obtain ⟨root, stack⟩ := st'
    cases stack with
    | nil =>
      simp only [Except.ok.injEq] at h
      subst h
      exact hr
    | cons f fs => cases h

theorem parse_wf {text : Str} {doc : Document}
    (h : Parse text = Except.ok doc) : wfItems doc := by
  have hr := parse_ok_runEvents h
  have hwf : wfState ((doc, []) : ParseState) :=
    runEvents_wf ⟨wfItems_nil, by intro f hf; cases hf⟩ (eventsOf_wf text) hr
  exact hwf.1

theorem parse_events {text : Str} {doc : Document}
    (h : Parse text = Except.ok doc) : itemsEvents doc = eventsOf text := by
  have hr := parse_ok_runEvents h
  have hse := runEvents_stateEvents hr
  simpa [stateEvents, stackEvents, itemsEvents] using hse

/-! ## Serialized lines classify back to their events -/

theorem indentChars_ws (d : Nat) : ∀ c ∈ indentChars d, isWS c := by
  intro c hc
  rw [indentChars, List.mem_replicate] at hc
  rw [hc.2]
  exact Or.inl rfl

theorem trim_cons_ws {c : Char} (h : isWS c) (l : Str) :
    trim (c :: l) = trim l := by
  rw [trim, trimLeft_cons_of_ws h]
  rfl

theorem trim_append_indent (d : Nat) (l : Str) :
    trim (indentChars d ++ l) = trim l := by
  rw [trim, trimLeft_append_ws (indentChars_ws d)]
  rfl

theorem not_ws_brace_open : ¬ isWS '{' := by decide

theorem not_ws_brace_close : ¬ isWS '}' := by decide

theorem not_ws_eq : ¬ isWS '=' := by decide

theorem trim_closeLine (d : Nat) : trim (closeLine d) = ['}'] := by
  rw [closeLine, trim_append_indent, trim, trimLeft_cons_of_not_ws not_ws_brace_close]
  exact trimRight_eq_self_of_getLast rfl not_ws_brace_close

theorem classify_closeLine (d : Nat) : classify (closeLine d) = some Event.closeB := by
  unfold classify
  rw [trim_closeLine]
  rfl

theorem trim_openLine_nil (d : Nat) : trim (openLine d []) = ['{'] := by
  rw [openLine, List.append_nil, trim_append_indent,
    trim_cons_ws (Or.inl rfl), trim, trimLeft_cons_of_not_ws not_ws_brace_open]
  exact trimRight_eq_self_of_getLast rfl not_ws_brace_open

theorem trim_openLine_ne {n : Str} (d : Nat) (hn : trim n = n) (hne : n ≠ []) :
    trim (openLine d n) = n ++ ' ' :: '{' :: [] := by
  rw [openLine, List.append_assoc, trim_append_indent, trim,
    trimLeft_append_left (trimLeft_of_trim_eq hn) hne]
  show trimRight (n ++ [' ', '{']) = _
  rw [show n ++ [' ', '{'] = (n ++ [' ']) ++ ['{'] by simp,
    trimRight_concat_not_ws not_ws_brace_open]

theorem classify_openLine {n : Str} (d : Nat) (hn : wfName n) :
    classify (openLine d n) = some (Event.openB n) := by
  obtain ⟨htrim, hnl, hhead⟩ := hn
  cases n with
  | nil =>
    unfold classify
    rw [trim_openLine_nil]
    rfl
  | cons c n' =>
    have hc : ¬ c = '#' := by
      intro heq
      exact hhead (by rw [heq]; rfl)
    have ht := trim_openLine_ne d htrim (by simp)
    unfold classify
    rw [ht]
    rw [if_neg (by simp)]
    rw [if_neg (by
      rw [List.cons_append]
      simp only [List.head?_cons, Option.some.injEq]
      exact hc)]
    rw [if_pos (by
      rw [show (c :: n') ++ ' ' :: '{' :: [] = ((c :: n') ++ [' ']) ++ ['{'] by simp]
      exact List.getLast?_concat _)]
    rw [show (c :: n') ++ ' ' :: '{' :: [] = ((c :: n') ++ [' ']) ++ ['{'] by simp,
      List.dropLast_concat]
    have hws : ∀ x ∈ [' '], isWS x := by
      intro x hx
      rw [List.mem_singleton] at hx
      rw [hx]
      exact Or.inl rfl
    rw [trim_append_ws_right htrim hws]

theorem ws_space : isWS ' ' := Or.inl rfl

theorem ws_singleton : ∀ x ∈ ([' '] : Str), isWS x := by
  intro x hx
  rw [List.mem_singleton] at hx
  rw [hx]
  exact ws_space

theorem val_getLast {x : Char} {v' : Str} (htv : trim (x :: v') = x :: v') :
    ∃ c, (x :: v').getLast? = some c ∧ ¬ isWS c := by
  cases hgl : (x :: v').getLast? with
  | none =>
    rw [List.getLast?_eq_none_iff] at hgl
    cases hgl
  | some c =>
    refine ⟨c, rfl, ?_⟩
    apply trimRight_getLast_not_ws (l := x :: v')
    rw [trimRight_of_trim_eq htv]
    exact hgl

theorem classify_entryLine {k v : Str} (d : Nat) (hk : wfKey k) (hv : wfVal v) :
    classify (entryLine d k v) = some (Event.entry k v) := by
  obtain ⟨htk, hknl, hkeq, hkhead⟩ := hk
  obtain ⟨htv, hvnl, hvlast⟩ := hv
  cases k with
  | nil =>
    cases v with
    | nil =>
      have ht : trim (entryLine d [] []) = ['='] := by
        simp only [entryLine, List.append_nil]
        rw [trim_append_indent]
        decide
      unfold classify
      rw [ht]
      rfl
    | cons x v' =>
      obtain ⟨c, hgl, hcws⟩ := val_getLast htv
      have ht : trim (entryLine d [] (x :: v')) = '=' :: ' ' :: x :: v' := by
        simp only [entryLine, List.append_nil]
        rw [trim_append_indent, trim_cons_ws ws_space, trim,
          trimLeft_cons_of_not_ws not_ws_eq]
        refine trimRight_eq_self_of_getLast ?_ hcws
        rw [show ('=' :: ' ' :: x :: v' : Str) = ['=', ' '] ++ (x :: v') by rfl,
          List.getLast?_append_of_ne_nil _ (by simp)]
        exact hgl
      unfold classify
      rw [ht]
      rw [if_neg (by simp)]
      rw [if_neg (by
        simp only [List.head?_cons, Option.some.injEq]
        decide)]
      rw [if_neg (by
        rw [show ('=' :: ' ' :: x :: v' : Str) = ['=', ' '] ++ (x :: v') by rfl,
          List.getLast?_append_of_ne_nil _ (by simp)]
        exact hvlast)]
      rw [if_neg (by
        intro hc
        injection hc with h1 h2
        exact absurd h1 (by decide))]
      rw [if_pos (List.mem_cons_self '=' _)]
      rw [show breakAt '=' ('=' :: ' ' :: x :: v') = ([], ' ' :: x :: v') from rfl]
      rw [show trim ([] : Str) = [] from rfl, trim_cons_ws ws_space, htv]
  | cons c k' =>
    have hkne : (c :: k' : Str) ≠ [] := by simp
    have hchash : ¬ c = '#' := by
      intro heq
      exact hkhead (by rw [heq]; rfl)
    have hknomem : '=' ∉ (c :: k') ++ [' '] := by
      intro hm
      cases List.mem_append.mp hm with
      | inl hh => exact hkeq hh
      | inr hh =>
        rw [List.mem_singleton] at hh
        exact absurd hh (by decide)
    cases v with
    | nil =>
      have ht : trim (entryLine d (c :: k') []) = (c :: k') ++ [' ', '='] := by
        simp only [entryLine]
        rw [List.append_assoc, trim_append_indent, trim,
          trimLeft_append_left (trimLeft_of_trim_eq htk) hkne]
        rw [show (c :: k') ++ (' ' :: '=' :: ' ' :: ([] : Str))
            = (((c :: k') ++ [' ']) ++ ['=']) ++ [' '] by simp]
        rw [trimRight_append_ws ws_singleton, trimRight_concat_not_ws not_ws_eq]
        simp
      unfold classify
      rw [ht]
      rw [if_neg (by simp)]
      rw [if_neg (by
        rw [List.cons_append]
        simp only [List.head?_cons, Option.some.injEq]
        exact hchash)]
      rw [if_neg (by
        rw [show (c :: k') ++ [' ', '='] = ((c :: k') ++ [' ']) ++ ['='] by simp,
          List.getLast?_concat]
        intro hcontra
        injection hcontra with h1
        exact absurd h1 (by decide))]
      rw [if_neg (by
        intro hc
        rw [List.cons_append] at hc
        injection hc with h1 h2
        exact absurd h2 (by simp))]
      rw [if_pos (by simp)]
      rw [show (c :: k') ++ [' ', '='] = ((c :: k') ++ [' ']) ++ '=' :: [] by simp,
        breakAt_append hknomem]
      rw [show trim ([] : Str) = [] from rfl, trim_append_ws_right htk ws_singleton]
    | cons x v' =>
      obtain ⟨cl, hgl, hcws⟩ := val_getLast htv
      have ht : trim (entryLine d (c :: k') (x :: v'))
          = (c :: k') ++ ' ' :: '=' :: ' ' :: x :: v' := by
        simp only [entryLine]
        rw [List.append_assoc, trim_append_indent, trim,
          trimLeft_append_left (trimLeft_of_trim_eq htk) hkne]
        refine trimRight_eq_self_of_getLast ?_ hcws
        rw [show (c :: k') ++ (' ' :: '=' :: ' ' :: x :: v')
            = ((c :: k') ++ [' ', '=', ' ']) ++ (x :: v') by simp,
          List.getLast?_append_of_ne_nil _ (by simp)]
        exact hgl
      unfold classify
      rw [ht]
      rw [if_neg (by simp)]
      rw [if_neg (by
        rw [List.cons_append]
        simp only [List.head?_cons, Option.some.injEq]
        exact hchash)]
      rw [if_neg (by
        rw [show (c :: k') ++ (' ' :: '=' :: ' ' :: x :: v')
            = ((c :: k') ++ [' ', '=', ' ']) ++ (x :: v') by simp,
          List.getLast?_append_of_ne_nil _ (by simp)]
        exact hvlast)]
      rw [if_neg (by
        intro hc
        rw [List.cons_append] at hc
        injection hc with h1 h2
        exact absurd h2 (by simp))]
      rw [if_pos (by simp)]
      rw [show (c :: k') ++ (' ' :: '=' :: ' ' :: x :: v')
          = ((c :: k') ++ [' ']) ++ '=' :: (' ' :: x :: v') by simp,
        breakAt_append hknomem]
      rw [show trim (' ' :: x :: v') = x :: v' by rw [trim_cons_ws ws_space, htv],
        trim_append_ws_right htk ws_singleton]

theorem indent_no_nl (d : Nat) : '\n' ∉ indentChars d := by
  intro hm
  rw [indentChars, List.mem_replicate] at hm
  exact absurd hm.2 (by decide)

mutual

theorem serializeItem_no_nl : ∀ (it : Item), wfItem it → ∀ (d : Nat),
    ∀ l ∈ serializeItem d it, '\n' ∉ l
  | Item.entry k v, hit, d, l, hl => by
    rw [wfItem] at hit
    obtain ⟨⟨htk, hknl, hkeq, hkh⟩, htv, hvnl, hvl⟩ := hit
    simp only [serializeItem, List.mem_singleton] at hl
    subst hl
    intro hm
    simp only [entryLine, List.mem_append, List.mem_cons] at hm
    rcases hm with (hm | hm) | hm | hm | hm
    · exact indent_no_nl d hm
    · exact hknl hm
    · exact absurd hm (by decide)
    · exact absurd hm (by decide)
    rcases hm with hm | hm
    · exact absurd hm (by decide)
    · exact hvnl hm
  | Item.blk n ch, hit, d, l, hl => by
    rw [wfItem] at hit
    obtain ⟨⟨htn, hnnl, hnh⟩, hch⟩ := hit
    simp only [serializeItem, List.mem_cons, List.mem_append,
      List.mem_singleton] at hl
    rcases hl with hl | hl | hl | hl
    · subst hl
      intro hm
      simp only [openLine, List.mem_append, List.mem_cons] at hm
      rcases hm with (hm | hm) | hm | hm
      · exact indent_no_nl d hm
      · exact hnnl hm
      · exact absurd hm (by decide)
      · simp at hm
    · exact serializeItems_no_nl ch hch (d + 1) l hl
    · subst hl
      intro hm
      simp only [closeLine, List.mem_append, List.mem_cons] at hm
      rcases hm with hm | hm
      · exact indent_no_nl d hm
      · simp at hm
    · simp at hl

theorem serializeItems_no_nl : ∀ (its : List Item), wfItems its → ∀ (d : Nat),
    ∀ l ∈ serializeItems d its, '\n' ∉ l
  | [], _, d, l, hl => by simp [serializeItems] at hl
  | i :: is, hits, d, l, hl => by
    rw [wfItems] at hits
    simp only [serializeItems, List.mem_append] at hl
    rcases hl with hl | hl
    · exact serializeItem_no_nl i hits.1 d l hl
    · exact serializeItems_no_nl is hits.2 d l hl

end

mutual

theorem serializeItem_events : ∀ (it : Item), wfItem it → ∀ (d : Nat),
    (serializeItem d it).filterMap classify = itemEvents it
  | Item.entry k v, hit, d => by
    rw [wfItem] at hit
    simp only [serializeItem, itemEvents]
    rw [List.filterMap_cons_some (classify_entryLine d hit.1 hit.2)]
    rfl
  | Item.blk n ch, hit, d => by
    rw [wfItem] at hit
    simp only [serializeItem, itemEvents]
    rw [List.filterMap_cons_some (classify_openLine d hit.1),
      List.filterMap_append, serializeItem_events_aux ch hit.2 (d + 1),
      List.filterMap_cons_some (classify_closeLine d)]
    rfl

theorem serializeItem_events_aux : ∀ (its : List Item), wfItems its → ∀ (d : Nat),
    (serializeItems d its).filterMap classify = itemsEvents its
  | [], _, d => rfl
  | i :: is, hits, d => by
    rw [wfItems] at hits
    simp only [serializeItems, itemsEvents]
    rw [List.filterMap_append, serializeItem_events i hits.1 d,
      serializeItem_events_aux is hits.2 d]

end

theorem serializeItem_ne_nil (d : Nat) (it : Item) : serializeItem d it ≠ [] := by
  cases it with
  | entry k v => simp [serializeItem]
  | blk n ch => simp [serializeItem]

theorem serializeItems_eq_nil {d : Nat} {its : List Item}
    (h : serializeItems d its = []) : its = [] := by
  cases its with
  | nil => rfl
  | cons i is =>
    simp only [serializeItems, List.append_eq_nil] at h
    exact absurd h.1 (serializeItem_ne_nil d i)

theorem eventsOf_serialize {doc : Document} (h : wfItems doc) :
    eventsOf (Serialize doc) = itemsEvents doc := by
  unfold Serialize eventsOf
  cases hL : serializeItems 0 doc with
  | nil =>
    have hdoc := serializeItems_eq_nil hL
    subst hdoc
    rfl
  | cons L Ls =>
    have hnl : ∀ l ∈ L :: Ls, '\n' ∉ l := by
      rw [← hL]
      exact serializeItems_no_nl doc h 0
    rw [splitLines_joinLines hnl (by simp), ← hL]
    exact serializeItem_events_aux doc h 0

theorem trim_head?_eq {line : Str} (h : trim line ≠ []) :
    (trim line).head? = (trimLeft line).head? := by
  obtain ⟨s, hs⟩ : trim line <+: trimLeft line := trimRight_isPrefixOf _
  cases htr : trim line with
  | nil => exact absurd htr h
  | cons c t =>
    rw [htr] at hs
    rw [← hs, List.cons_append]
    rfl

/-! ## Claim theorems -/

/-- C1: for every syntactically valid input text, parsing, serializing the
resulting Document, and parsing again yields the same Document: same block
names, same nesting, same entries. -/
theorem parse_serialize_parse {text : Str} {doc : Document}
    (h : Parse text = Except.ok doc) : Parse (Serialize doc) = Except.ok doc := by
  have hwf := parse_wf h
  have hev : (splitLines (Serialize doc)).filterMap classify = itemsEvents doc :=
    eventsOf_serialize hwf
  have hrun := runEvents_itemsEvents doc ([], [])
  rw [foldl_pushItem_root, List.nil_append] at hrun
  unfold Parse parseLines
  rw [runLines_eq_runEvents, hev, hrun]

/-- Witness for C1 at the nested two-level sample of the design document. -/
theorem parse_serialize_parse_witness :
    Parse sampleNested = Except.ok sampleNestedDoc ∧
    Parse (Serialize sampleNestedDoc) = Except.ok sampleNestedDoc :=
  ⟨rfl, @parse_serialize_parse sampleNested sampleNestedDoc rfl⟩

/-- C2: an input with unbalanced braces (a closing brace while no block is
open, or an open block left at end of input) makes Parse fail with the
malformed-block error, and that error is the only error the core can
produce. -/
theorem parse_unbalanced_error (text : Str) :
    (unbalanced text → Parse text = Except.error ParseError.malformedBlock) ∧
    (∀ e, Parse text = Except.error e → e = ParseError.malformedBlock) := by
  constructor
  · intro h
    exact parseLines_of_unbalanced h
  · intro e _
    cases e
    rfl

/-- Witness for C2 at the single stray closing brace. -/
theorem parse_unbalanced_error_witness :
    unbalanced strayCloser ∧
    Parse strayCloser = Except.error ParseError.malformedBlock :=
  ⟨by decide, (parse_unbalanced_error strayCloser).1 (by decide)⟩

/-- C3: serializing a parsed Document emits the entries and child blocks of
every nesting level in the same relative order as the source text: the
serialized text has exactly the same sequence of structural events. -/
theorem serialize_preserves_order {text : Str} {doc : Document}
    (h : Parse text = Except.ok doc) :
    eventsOf (Serialize doc) = eventsOf text := by
  rw [eventsOf_serialize (parse_wf h), parse_events h]

/-- Witness for C3 at a sample interleaving entries and a block. -/
theorem serialize_preserves_order_witness :
    Parse sampleInterleaved = Except.ok sampleInterleavedDoc ∧
    eventsOf (Serialize sampleInterleavedDoc) = eventsOf sampleInterleaved :=
  ⟨rfl, @serialize_preserves_order sampleInterleaved sampleInterleavedDoc rfl⟩

/-- C4 counterexample: a comment line whose trimmed form contains an equals
sign and ends with an opening brace is not treated as a block opener: the
parser state is unchanged by the line and parsing the line alone succeeds
with an empty Document instead of failing with an unclosed block. -/
theorem opener_priority_counterexample :
    (trim commentOpenerLine).getLast? = some '{' ∧
    '=' ∈ trim commentOpenerLine ∧
    parseStep ([], []) commentOpenerLine = Except.ok ([], []) ∧
    Parse commentOpenerLine = Except.ok [] :=
  ⟨rfl, by decide, rfl, rfl⟩

/-- C4 as amended: for every line that, after trimming, contains an equals
sign and ends with an opening brace, and whose first non-whitespace character
is not the comment marker, the parser pushes a new block named by the trimmed
text before the brace and records no entry. -/
theorem opener_priority (st : ParseState) (line : Str)
    (hbrace : (trim line).getLast? = some '{')
    (hcomment : (trimLeft line).head? ≠ some '#')
    (heq : '=' ∈ trim line) :
    parseStep st line
      = Except.ok (st.1, (trim (trim line).dropLast, []) :: st.2) := by
  have hne : trim line ≠ [] := by
    intro h0
    rw [h0] at hbrace
    cases hbrace
  have hh : (trim line).head? ≠ some '#' := by
    rw [trim_head?_eq hne]
    exact hcomment
  have hcl : classify line = some (Event.openB (trim (trim line).dropLast)) := by
    unfold classify
    rw [if_neg hne, if_neg hh, if_pos hbrace]
  unfold parseStep
  rw [hcl]
  rfl

/-- Witness for the amended C4 at the entry-shaped opener line. -/
theorem opener_priority_witness :
    (trim entryOpenerLine).getLast? = some '{' ∧
    (trimLeft entryOpenerLine).head? ≠ some '#' ∧
    '=' ∈ trim entryOpenerLine ∧
    parseStep ([], []) entryOpenerLine
      = Except.ok ([], [(trim (trim entryOpenerLine).dropLast, [])]) :=
  ⟨rfl, by decide, by decide,
    opener_priority ([], []) entryOpenerLine rfl (by decide) (by decide)⟩

/-- C5: a line whose first non-whitespace character is the comment marker
contributes nothing: the parser state is unchanged, so the line produces
neither an Entry nor a Block. -/
theorem comment_line_ignored (st : ParseState) (line : Str)
    (h : (trimLeft line).head? = some '#') : parseStep st line = Except.ok st := by
  cases hl : trimLeft line with
  | nil => rw [hl] at h; cases h
  | cons c rest =>
    rw [hl] at h
    simp only [List.head?_cons, Option.some.injEq] at h
    subst h
    have hne : trim line ≠ [] := by
      intro h0
      rw [trim, hl, trimRight_eq_nil_iff] at h0
      exact absurd (h0 '#' (List.mem_cons_self _ _)) (by decide)
    have hh : (trim line).head? = some '#' := by
      rw [trim_head?_eq hne, hl]
      rfl
    unfold parseStep classify
    rw [if_neg hne, if_pos hh]

/-- Witness for C5 at an indented comment line. -/
theorem comment_line_ignored_witness :
    (trimLeft commentLine).head? = some '#' ∧
    parseStep ([], []) commentLine = Except.ok ([], []) :=
  ⟨rfl, comment_line_ignored ([], []) commentLine rfl⟩

/-- C6: a line containing no equals sign whose trimmed form neither ends
with an opening brace nor is a lone closing brace leaves the parser state
unchanged: no error is raised and no Entry is recorded. -/
theorem unrecognized_line_ignored (st : ParseState) (line : Str)
    (hnem : '=' ∉ line) (hbr : (trim line).getLast? ≠ some '{')
    (hcl : trim line ≠ ['}']) : parseStep st line = Except.ok st := by
  unfold parseStep classify
  by_cases h0 : trim line = []
  · rw [if_pos h0]
  · rw [if_neg h0]
    by_cases h1 : (trim line).head? = some '#'
    · rw [if_pos h1]
    · rw [if_neg h1, if_neg hbr, if_neg hcl,
        if_neg (fun hm => hnem (mem_of_mem_trim hm))]

/-- Witness for C6 at a bare word line. -/
theorem unrecognized_line_ignored_witness :
    '=' ∉ bareWordLine ∧
    (trim bareWordLine).getLast? ≠ some '{' ∧
    trim bareWordLine ≠ ['}'] ∧
    parseStep ([], []) bareWordLine = Except.ok ([], []) :=
  ⟨by decide, by decide, by decide,
    unrecognized_line_ignored ([], []) bareWordLine (by decide) (by decide)
      (by decide)⟩

/-- C7: Serialize is a total function: it is defined by terminating
structural recursion for every Document value, however deeply nested, and
always returns a string, with no failure mode in its type. -/
theorem serialize_total (doc : Document) : ∃ s : Str, Serialize doc = s :=
  ⟨Serialize doc, rfl⟩

/-- C8: the configuration path is the fixed test path exactly when the
element at index one of the argument vector is the test flag, and the
environment-derived home path otherwise; no other path is resolved. -/
theorem configPath_cases (argv : List Str) (home : Str) :
    (argv.get? 1 = some testFlag → configPath argv home = testPath) ∧
    (argv.get? 1 ≠ some testFlag → configPath argv home = home ++ homeSuffix) := by
  cases argv with
  | nil =>
    constructor
    · intro h
      cases h
    · intro _
      rw [configPath, if_neg (fun hc => absurd hc.1 (by decide))]
  | cons a0 rest =>
    cases rest with
    | nil =>
      constructor
      · intro h
        cases h
      · intro _
        rw [configPath, if_neg (fun hc => absurd hc.1 (by simp))]
    | cons a1 rest' =>
      constructor
      · intro h
        have h1 : a1 = testFlag := by
          injection h
        rw [configPath, if_pos]
        refine ⟨by simp, ?_⟩
        show a1 = testFlag
        exact h1
      · intro h
        have h1 : ¬ a1 = testFlag := fun hc => h (congrArg some hc)
        rw [configPath, if_neg]
        intro hc
        exact h1 hc.2

/-- Witness for C8: the test flag selects the test path, its absence the
home path. -/
theorem configPath_cases_witness :
    configPath [progName, testFlag] homeSample = testPath ∧
    configPath [progName] homeSample = homeSample ++ homeSuffix :=
  ⟨(configPath_cases [progName, testFlag] homeSample).1 rfl,
    (configPath_cases [progName] homeSample).2 (by decide)⟩

theorem exists_four {α : Type} : ∀ {l : List α}, 4 ≤ l.length →
    ∃ a b c d rest, l = a :: b :: c :: d :: rest := by
  intro l h
  match l, h with
  | a :: b :: c :: d :: rest, _ => exact ⟨a, b, c, d, rest, rfl⟩
  | [], h => simp at h
  | [a], h => simp at h
  | [a, b], h => simp at h
  | [a, b, c], h => simp at h

theorem exists_three {α : Type} : ∀ {l : List α}, 3 ≤ l.length →
    ∃ a b c rest, l = a :: b :: c :: rest := by
  intro l h
  match l, h with
  | a :: b :: c :: rest, _ => exact ⟨a, b, c, rest, rfl⟩
  | [], h => simp at h
  | [a], h => simp at h
  | [a, b], h => simp at h

theorem kbRow_some {s : Str}
    (h : 4 ≤ (splitN ',' 4 (trimPrefixGo bindEq s)).length) :
    ∃ r, kbRow s = some r := by
  obtain ⟨a, b, c, d, rest, hsp⟩ := exists_four h
  unfold kbRow
  rw [hsp]
  dsimp only
  by_cases h0 : a = []
  · rw [if_pos h0]
    exact ⟨_, rfl⟩
  · rw [if_neg h0]
    exact ⟨_, rfl⟩

theorem mRow_some {s : Str}
    (h : 3 ≤ (splitN ',' 3 (trimPrefixGo bindmEq s)).length) :
    ∃ r, mRow s = some r := by
  obtain ⟨a, b, c, rest, hsp⟩ := exists_three h
  unfold mRow
  rw [hsp]
  dsimp only
  by_cases h0 : a = []
  · rw [if_pos h0]
    exact ⟨_, rfl⟩
  · rw [if_neg h0]
    exact ⟨_, rfl⟩

theorem rowsOf_some {f : Str → Option Str} : ∀ {l : List Str},
    (∀ s ∈ l, ∃ r, f s = some r) → ∃ out, rowsOf f l = some out := by
  intro l
  induction l with
  | nil => exact fun _ => ⟨[], rfl⟩
  | cons a as ih =>
    intro h
    obtain ⟨r, hr⟩ := h a (List.mem_cons_self _ _)
    obtain ⟨out, hout⟩ := ih (fun s hs => h s (List.mem_cons_of_mem _ hs))
    refine ⟨r :: out, ?_⟩
    unfold rowsOf
    rw [hr, hout]

/-- C9: keybindsToMarkdown is total exactly under the precondition that
every plain keybind splits into at least four comma-separated fields after
the bind prefix is trimmed, and every mouse keybind into at least three; the
unguarded indexing panics (modelled as none) outside the precondition, as at
the two-field element. -/
theorem keybindsToMarkdown_partial (kbKeybinds mKeybinds : List Str)
    (hkb : ∀ s ∈ kbKeybinds, 4 ≤ (splitN ',' 4 (trimPrefixGo bindEq s)).length)
    (hm : ∀ s ∈ mKeybinds, 3 ≤ (splitN ',' 3 (trimPrefixGo bindmEq s)).length) :
    (∃ out, keybindsToMarkdown kbKeybinds mKeybinds = some out) ∧
    keybindsToMarkdown [shortBindLine] [] = none := by
  constructor
  · obtain ⟨a, ha⟩ := rowsOf_some (fun s hs => kbRow_some (hkb s hs))
    obtain ⟨b, hb⟩ := rowsOf_some (fun s hs => mRow_some (hm s hs))
    refine ⟨a ++ b, ?_⟩
    unfold keybindsToMarkdown
    rw [ha, hb]
  · rfl

/-- Witness for C9 at full-width keybind lines. -/
theorem keybindsToMarkdown_partial_witness :
    (∀ s ∈ [fullBindLine],
      4 ≤ (splitN ',' 4 (trimPrefixGo bindEq s)).length) ∧
    (∀ s ∈ [fullBindmLine],
      3 ≤ (splitN ',' 3 (trimPrefixGo bindmEq s)).length) ∧
    ((∃ out, keybindsToMarkdown [fullBindLine] [fullBindmLine] = some out) ∧
      keybindsToMarkdown [shortBindLine] [] = none) :=
  ⟨by decide, by decide,
    keybindsToMarkdown_partial [fullBindLine] [fullBindmLine] (by decide)
      (by decide)⟩

theorem scanLine_fields (st : ScanState) (l : Str) :
    (scanLine st l).kbKeybinds = st.kbKeybinds ∧
    (scanLine st l).variablesOut = st.variablesOut ∧
    (scanLine st l).mKeybinds
      = st.mKeybinds ++ (if matchesBindRegex l then [l] else []) := by
  cases hb : matchesBindRegex l with
  | true => simp [scanLine, hb]
  | false =>
    simp only [scanLine, hb, Bool.false_eq_true, if_false]
    by_cases hd : l.head? = some '$'
    · rw [if_pos hd]
      by_cases he : '=' ∈ l
      · rw [if_pos he]
        cases hsp : splitN '=' 2 l with
        | nil => exact ⟨rfl, rfl, by simp⟩
        | cons a r =>
          cases r with
          | nil => exact ⟨rfl, rfl, by simp⟩
          | cons b r' => exact ⟨rfl, rfl, by simp⟩
      · rw [if_neg he]
        exact ⟨rfl, rfl, by simp⟩
    · rw [if_neg hd]
      exact ⟨rfl, rfl, by simp⟩

theorem foldl_scanLine (lines : List Str) : ∀ st : ScanState,
    (lines.foldl scanLine st).kbKeybinds = st.kbKeybinds ∧
    (lines.foldl scanLine st).variablesOut = st.variablesOut ∧
    (lines.foldl scanLine st).mKeybinds
      = st.mKeybinds ++ lines.filter matchesBindRegex := by
  induction lines with
  | nil =>
    intro st
    exact ⟨rfl, rfl, by simp⟩
  | cons l ls ih =>
    intro st
    rw [List.foldl_cons]
    obtain ⟨h1, h2, h3⟩ := ih (scanLine st l)
    obtain ⟨f1, f2, f3⟩ := scanLine_fields st l
    refine ⟨h1.trans f1, h2.trans f2, ?_⟩
    rw [h3, f3]
    by_cases hb : matchesBindRegex l
    · simp [List.filter_cons, hb]
    · simp [List.filter_cons, hb]

/-- C10: for every input, the scan loop of readHyprlandConfig returns an
empty kbKeybinds slice and an empty variables slice; every line matching the
bind regular expression lands in mKeybinds, in order. -/
theorem readHyprlandConfig_empty_slices (lines : List Str) :
    (readHyprlandConfig lines).kbKeybinds = [] ∧
    (readHyprlandConfig lines).variablesOut = [] ∧
    (readHyprlandConfig lines).mKeybinds = lines.filter matchesBindRegex := by
  have h := foldl_scanLine lines ⟨[], [], [], fun _ => none⟩
  unfold readHyprlandConfig
  exact ⟨h.1, h.2.1, by rw [h.2.2]; rfl⟩

end Hyprkeys
